import Mathlib

/-!
Verification of the progress-tracking and question-selection core of the
CEFR flashcard application (src/app.py).

The embedding models Python strings as lists of characters (`PyStr`),
Python dicts as association lists with first-match lookup and
replace-or-append update (`dictGet` / `dictSet`), the Streamlit session
store `st.session_state.progress` as an explicit `Progress` value threaded
through the operations, timestamps (`now_iso`) as caller-supplied strings,
and the random draws of `random.randrange` / `random.choices` /
`random.choice` as caller-supplied numbers.  Operations that raise a
Python exception are modelled as returning `none` (or an explicit error
value for the JSON importer).
-/

namespace EnglishWordApp

/-- Python strings, modelled as lists of characters. -/
abbrev PyStr := List Char

/-- Python `dict.get(key)`: first entry with the given key, if any. -/
def dictGet {α : Type} : List (PyStr × α) → PyStr → Option α
  | [], _ => none
  | p :: d, k => if p.1 = k then some p.2 else dictGet d k

/-- Python `dict[key] = v`: replace the entry with the given key, or append
a new entry in insertion order. -/
def dictSet {α : Type} : List (PyStr × α) → PyStr → α → List (PyStr × α)
  | [], k, v => [(k, v)]
  | p :: d, k, v => if p.1 = k then (k, v) :: d else p :: dictSet d k v

/-- A value of `st.session_state.progress["word_scores"]`:
`{score, attempts, updated_at}` as written by `set_word_mode_score`. -/
structure WordRec where
  score : Int
  attempts : Int
  updated_at : PyStr
deriving DecidableEq

/-- A value of `st.session_state.progress["grammar_reads"]`:
`{read_count, last_read_at}` as written by `mark_grammar_read`. -/
structure GrammarRec where
  read_count : Int
  last_read_at : PyStr
deriving DecidableEq

/-- The session store `st.session_state.progress`. -/
structure Progress where
  word_scores : List (PyStr × WordRec)
  grammar_reads : List (PyStr × GrammarRec)
deriving DecidableEq

/-- `ensure_progress`: the initial (empty) session store. -/
def ensure_progress : Progress := { word_scores := [], grammar_reads := [] }

/-- The character of a decimal digit (only applied to numbers below ten). -/
def digitChar : Nat → Char
  | 0 => '0' | 1 => '1' | 2 => '2' | 3 => '3' | 4 => '4'
  | 5 => '5' | 6 => '6' | 7 => '7' | 8 => '8' | _ => '9'

/-- Decimal digits of a natural number, fuel-driven so that the kernel can
evaluate it (`fuel ≥ number of digits` suffices; we pass `n + 1`). -/
def natCharsAux : Nat → Nat → PyStr
  | 0, _ => []
  | fuel + 1, n =>
    if n < 10 then [digitChar n]
    else natCharsAux fuel (n / 10) ++ [digitChar (n % 10)]

/-- Decimal representation of a natural number. -/
def natChars (n : Nat) : PyStr := natCharsAux (n + 1) n

/-- Python `str(i)` for an integer `i` (as used by the f-string keys). -/
def pyStrOfInt (m : Int) : PyStr :=
  if m < 0 then '-' :: natChars m.natAbs else natChars m.natAbs

/-- The composite word-score key `f"{level}|{headword}|{mode}"`. -/
def wordKey (level headword : PyStr) (mode : Int) : PyStr :=
  level ++ '|' :: (headword ++ '|' :: pyStrOfInt mode)

/-- The composite grammar-read key `f"{level}|{name}"`. -/
def grammarKey (level name : PyStr) : PyStr := level ++ '|' :: name

/-- Python `s.split("|")`: split at every pipe character. -/
def splitOnPipe : PyStr → List PyStr
  | [] => [[]]
  | c :: rest =>
    match splitOnPipe rest with
    | s :: ss => if c = '|' then [] :: s :: ss else (c :: s) :: ss
    | [] => [[]]

/-- Rejoin split components with pipes (inverse of `splitOnPipe`). -/
def joinPipe : List PyStr → PyStr
  | [] => []
  | [s] => s
  | s :: t :: rest => s ++ '|' :: joinPipe (t :: rest)

/-- Python `key.split("|", 2)` unpacked into exactly three components, as in
`lvl, hw, mode_s = key.split("|", 2)`; `none` models the `ValueError` when
the key holds fewer than two pipes. -/
def split2 (k : PyStr) : Option (PyStr × PyStr × PyStr) :=
  match splitOnPipe k with
  | a :: b :: c :: rest => some (a, b, joinPipe (c :: rest))
  | _ => none

/-- Digit machine of Python `int(s)` on the sign-stripped body: state `0` =
nothing read yet, `1` = last char was a digit, `2` = last char was an
underscore (which must be followed by a digit). -/
def pyDigitsRun (st : Nat) (acc : Nat) : PyStr → Option Nat
  | [] => if st = 1 then some acc else none
  | c :: rest =>
    if c.isDigit then pyDigitsRun 1 (acc * 10 + (c.toNat - 48)) rest
    else if c = '_' ∧ st = 1 then pyDigitsRun 2 acc rest
    else none

/-- Strip surrounding whitespace, as Python `int` does before parsing. -/
def pyTrim (s : PyStr) : PyStr :=
  ((s.dropWhile Char.isWhitespace).reverse.dropWhile Char.isWhitespace).reverse

/-- Python `int(s)`: strip surrounding whitespace, optional sign, then a
non-empty digit string with single underscores allowed between digits.
`none` models the `ValueError` on anything else. -/
def pyInt (s : PyStr) : Option Int :=
  match pyTrim s with
  | [] => none
  | c :: rest =>
    if c = '+' then (pyDigitsRun 0 0 rest).map Int.ofNat
    else if c = '-' then (pyDigitsRun 0 0 rest).map (fun n => -(n : Int))
    else (pyDigitsRun 0 0 (c :: rest)).map Int.ofNat

/-- `get_word_mode_score(level, headword, mode)`: `(score, attempts)`,
defaulting to `(1, 0)` when the key is absent. -/
def get_word_mode_score (p : Progress) (level headword : PyStr) (mode : Int) :
    Int × Int :=
  match dictGet p.word_scores (wordKey level headword mode) with
  | none => (1, 0)
  | some r => (r.score, r.attempts)

/-- `set_word_mode_score(level, headword, mode, score)`: store
`{score, attempts := previous attempts + 1, updated_at := now}` under the
composite key.  The timestamp `now` is passed explicitly. -/
def set_word_mode_score (p : Progress) (level headword : PyStr)
    (mode score : Int) (now : PyStr) : Progress :=
  let prev := get_word_mode_score p level headword mode
  { p with
    word_scores :=
      dictSet p.word_scores (wordKey level headword mode)
        { score := score, attempts := prev.2 + 1, updated_at := now } }

/-- One iteration of the `for key, rec in ...word_scores.items()` loop of
`get_all_word_totals`: parse the key (skipping on any parse failure), skip
foreign levels, headwords not in the totals dict, and out-of-range modes,
otherwise add `score - 1` to the headword's running total. -/
def totalsStep (level : PyStr) (totals : List (PyStr × Int))
    (kv : PyStr × WordRec) : List (PyStr × Int) :=
  match split2 kv.1 with
  | none => totals
  | some (lvl, hw, mode_s) =>
    match pyInt mode_s with
    | none => totals
    | some mode =>
      if lvl = level then
        match dictGet totals hw with
        | none => totals
        | some t =>
          if 1 ≤ mode ∧ mode ≤ 5 then dictSet totals hw (t + (kv.2.score - 1))
          else totals
      else totals

/-- `get_all_word_totals(level, headwords)`: start every listed headword at
the default total `5`, then fold the parsing loop over all stored
word-score entries. -/
def get_all_word_totals (p : Progress) (level : PyStr)
    (headwords : List PyStr) : List (PyStr × Int) :=
  p.word_scores.foldl (totalsStep level)
    (headwords.foldl (fun d hw => dictSet d hw 5) [])

/-- `mark_grammar_read(level, name)`: create the entry with `read_count = 1`
or increment the existing count; always write `last_read_at := now`. -/
def mark_grammar_read (p : Progress) (level name : PyStr) (now : PyStr) :
    Progress :=
  match dictGet p.grammar_reads (grammarKey level name) with
  | none =>
    { p with
      grammar_reads :=
        dictSet p.grammar_reads (grammarKey level name)
          { read_count := 1, last_read_at := now } }
  | some r =>
    { p with
      grammar_reads :=
        dictSet p.grammar_reads (grammarKey level name)
          { read_count := r.read_count + 1, last_read_at := now } }

/-- Python `s.startswith(pre)`. -/
def startsWithKey : PyStr → PyStr → Bool
  | [], _ => true
  | _ :: _, [] => false
  | c :: cs, d :: ds => c = d && startsWithKey cs ds

/-- Python `k.split("|", 1)[1]`: everything after the first pipe (the keys
this is applied to always hold a pipe, thanks to the startswith filter). -/
def afterFirstPipe : PyStr → PyStr
  | [] => []
  | c :: rest => if c = '|' then rest else afterFirstPipe rest

/-- The set comprehension of `get_grammar_read_stats`:
`{k.split("|", 1)[1] for k in read_keys if k.startswith(level + "|")}`. -/
def readNamesOf (p : Progress) (level : PyStr) : List PyStr :=
  p.grammar_reads.filterMap fun kv =>
    if startsWithKey (level ++ ['|']) kv.1 then some (afterFirstPipe kv.1)
    else none

/-- `get_grammar_read_stats(level, names)`: `(read_unique, total)`. -/
def get_grammar_read_stats (p : Progress) (level : PyStr)
    (names : List PyStr) : Nat × Nat :=
  let read_names := readNamesOf p level
  (names.countP (fun n => decide (n ∈ read_names)), names.length)

/-- The progress document produced by `export_progress_json` and consumed
by `import_progress_json` (the JSON text layer is identified with the
structured payload; `none` fields model absent JSON keys). -/
structure Document where
  version : Option Int
  exported_at : Option PyStr
  word_scores : Option (List (PyStr × WordRec))
  grammar_reads : Option (List (PyStr × GrammarRec))
deriving DecidableEq

/-- The `ValueError` raised by `import_progress_json` on a malformed
document (the spec's FormatError). -/
inductive ImpError
  | FormatError
deriving DecidableEq

/-- `export_progress_json()`: snapshot the store with `version = 1` and the
export timestamp. -/
def export_progress_json (p : Progress) (now : PyStr) : Document :=
  { version := some 1
    exported_at := some now
    word_scores := some p.word_scores
    grammar_reads := some p.grammar_reads }

/-- `import_progress_json(text)`: reject (leaving the store untouched) when
either top-level collection is missing, otherwise overwrite both
collections wholesale.  The returned pair is (post-state, raised error). -/
def import_progress_json (p : Progress) (d : Document) :
    Progress × Option ImpError :=
  match d.word_scores, d.grammar_reads with
  | some ws, some gr => ({ word_scores := ws, grammar_reads := gr }, none)
  | _, _ => (p, some ImpError.FormatError)

/-- The weight list built by `choose_word_weighted`: per row,
`w = 51 - total` floored at `0`, with `total = totals.get(hw, 5)`. -/
def itemWeights (p : Progress) (level : PyStr) (headwords : List PyStr) :
    List Int :=
  let totals := get_all_word_totals p level headwords
  headwords.map fun hw =>
    let t := (dictGet totals hw).getD 5
    let w : Int := 51 - t
    if w < 0 then 0 else w

/-- Python `sum` over a list of integers. -/
def intSum (l : List Int) : Int := l.foldl (· + ·) 0

/-- The index selection of `random.choices(range(n), weights=w, k=1)` once
the uniform draw is fixed: the first index whose cumulative weight exceeds
`u`, clamped to the last index. -/
def weightedPick : List Int → Int → Nat
  | [], _ => 0
  | [_], _ => 0
  | w :: w2 :: ws, u => if u < w then 0 else weightedPick (w2 :: ws) (u - w) + 1

/-- `choose_word_weighted(level, df_words)`, with the rows represented by
their headword column.  `r` feeds `random.randrange` (uniform fallback) and
`u` feeds the weighted draw of `random.choices`; `none` models the
`ValueError` of `random.randrange(0)` on an empty item list. -/
def choose_word_weighted (p : Progress) (level : PyStr)
    (headwords : List PyStr) (r : Nat) (u : Int) : Option Nat :=
  let weights := itemWeights p level headwords
  if intSum weights = 0 then
    if headwords.length = 0 then none
    else some (r % headwords.length)
  else some (weightedPick weights u)

/-- `pick_mode(enabled_modes)`: `random.choice`, i.e. a uniform index draw;
`none` models the `IndexError` on an empty list. -/
def pick_mode (enabled_modes : List Int) (r : Nat) : Option Int :=
  enabled_modes[r % enabled_modes.length]?

/-- Per-entry contribution of one stored word-score entry to the total of
the headword `hw` at `level`, as `get_all_word_totals` computes it. -/
def entryContrib (level hw : PyStr) (kv : PyStr × WordRec) : Int :=
  match split2 kv.1 with
  | none => 0
  | some (lvl, h, mode_s) =>
    match pyInt mode_s with
    | none => 0
    | some mode =>
      if lvl = level ∧ h = hw ∧ 1 ≤ mode ∧ mode ≤ 5 then kv.2.score - 1
      else 0

/-- Contribution of mode `m` to the spec-side total: `score - 1` when a
word-score entry exists under the canonical key, else `0`. -/
def modeContrib (p : Progress) (level hw : PyStr) (m : Int) : Int :=
  match dictGet p.word_scores (wordKey level hw m) with
  | none => 0
  | some r => r.score - 1

/-- Modelled from the spec: the totals formula of §4.2, default `5` plus,
for each mode `1..5` with a recorded entry for `(level, headword, mode)`,
the amount `score - 1`. -/
def specWordTotal (p : Progress) (level hw : PyStr) : Int :=
  5 + modeContrib p level hw 1 + modeContrib p level hw 2 +
    modeContrib p level hw 3 + modeContrib p level hw 4 +
    modeContrib p level hw 5

/-- A stored key is canonical when, whenever the totals parser accepts it,
it is exactly the composite encoding of its own parse (rules out aliases
such as a zero-padded mode segment). -/
def keyCanonB (k : PyStr) : Bool :=
  match split2 k with
  | none => true
  | some (lvl, h, mode_s) =>
    match pyInt mode_s with
    | none => true
    | some m => k = wordKey lvl h m

/-! ### Dictionary lemmas -/

theorem dictGet_dictSet_self {α : Type} (d : List (PyStr × α)) (k : PyStr)
    (v : α) : dictGet (dictSet d k v) k = some v := by
  induction d with
  | nil => simp [dictGet, dictSet]
  | cons p d ih =>
    by_cases h : p.1 = k
    · simp [dictGet, dictSet, h]
    · simp [dictGet, dictSet, h, ih]

theorem dictGet_dictSet_ne {α : Type} (d : List (PyStr × α)) (k k' : PyStr)
    (v : α) (h : k' ≠ k) : dictGet (dictSet d k v) k' = dictGet d k' := by
  induction d with
  | nil =>
    simp only [dictSet, dictGet]
    rw [if_neg (fun h' => h h'.symm)]
  | cons p d ih =>
    by_cases hp : p.1 = k
    · simp only [dictSet, if_pos hp, dictGet]
      rw [if_neg (fun h' => h h'.symm), if_neg (by rw [hp]; exact fun h' => h h'.symm)]
    · simp only [dictSet, if_pos, if_neg hp, dictGet]
      by_cases hq : p.1 = k'
      · simp [hq]
      · simp [hq, ih]

theorem dictGet_isSome_iff {α : Type} (d : List (PyStr × α)) (k : PyStr) :
    (dictGet d k).isSome ↔ ∃ v, (k, v) ∈ d := by
  induction d with
  | nil => simp [dictGet]
  | cons p d ih =>
    obtain ⟨a, b⟩ := p
    by_cases h : a = k
    · subst h
      simp only [dictGet, if_pos rfl, Option.isSome_some, List.mem_cons]
      constructor
      · intro _
        exact ⟨b, Or.inl rfl⟩
      · intro _
        rfl
    · simp only [dictGet, if_neg h, ih, List.mem_cons]
      constructor
      · rintro ⟨v, hv⟩
        exact ⟨v, Or.inr hv⟩
      · rintro ⟨v, hv | hv⟩
        · cases hv
          exact absurd rfl h
        · exact ⟨v, hv⟩

theorem dictSet_map_fst {α : Type} (d : List (PyStr × α)) (k : PyStr) (v : α)
    (h : (dictGet d k).isSome) :
    (dictSet d k v).map Prod.fst = d.map Prod.fst := by
  induction d with
  | nil => simp [dictGet] at h
  | cons p d ih =>
    by_cases hp : p.1 = k
    · simp [dictSet, hp]
    · simp only [dictGet, if_neg hp] at h
      simp [dictSet, hp, ih h]

/-! ### Splitting / joining lemmas -/

theorem splitOnPipe_ne_nil (s : PyStr) : splitOnPipe s ≠ [] := by
  cases s with
  | nil => simp [splitOnPipe]
  | cons c rest =>
    unfold splitOnPipe
    cases h : splitOnPipe rest with
    | nil => simp
    | cons t ts =>
      by_cases hc : c = '|' <;> simp [hc]

theorem splitOnPipe_cons_pipe (s : PyStr) :
    splitOnPipe ('|' :: s) = [] :: splitOnPipe s := by
  cases h : splitOnPipe s with
  | nil => exact absurd h (splitOnPipe_ne_nil s)
  | cons t ts => simp [splitOnPipe, h]

theorem splitOnPipe_cons_ne (c : Char) (s : PyStr) (hc : c ≠ '|')
    (t : PyStr) (ts : List PyStr) (h : splitOnPipe s = t :: ts) :
    splitOnPipe (c :: s) = (c :: t) :: ts := by
  simp [splitOnPipe, h, hc]

theorem splitOnPipe_append (a s : PyStr) (ha : '|' ∉ a) :
    splitOnPipe (a ++ '|' :: s) = a :: splitOnPipe s := by
  induction a with
  | nil => simpa using splitOnPipe_cons_pipe s
  | cons c a ih =>
    have hc : c ≠ '|' := fun h => ha (h ▸ List.mem_cons_self c a)
    have ha' : '|' ∉ a := fun h => ha (List.mem_cons_of_mem c h)
    have ih' := ih ha'
    show splitOnPipe (c :: (a ++ '|' :: s)) = (c :: a) :: splitOnPipe s
    rw [splitOnPipe_cons_ne c (a ++ '|' :: s) hc a (splitOnPipe s) ih']

theorem joinPipe_cons_cons (c : Char) (t : PyStr) (ts : List PyStr) :
    joinPipe ((c :: t) :: ts) = c :: joinPipe (t :: ts) := by
  cases ts with
  | nil => simp [joinPipe]
  | cons u us => simp [joinPipe]

theorem joinPipe_splitOnPipe (s : PyStr) : joinPipe (splitOnPipe s) = s := by
  induction s with
  | nil => simp [splitOnPipe, joinPipe]
  | cons c s ih =>
    by_cases hc : c = '|'
    · subst hc
      rw [splitOnPipe_cons_pipe]
      cases h : splitOnPipe s with
      | nil => exact absurd h (splitOnPipe_ne_nil s)
      | cons t ts =>
        rw [h] at ih
        show joinPipe ([] :: t :: ts) = '|' :: s
        simp [joinPipe, ih]
    · cases h : splitOnPipe s with
      | nil => exact absurd h (splitOnPipe_ne_nil s)
      | cons t ts =>
        rw [splitOnPipe_cons_ne c s hc t ts h, joinPipe_cons_cons]
        rw [h] at ih
        rw [ih]

theorem splitOnPipe_no_pipe (s : PyStr) (t : PyStr)
    (ht : t ∈ splitOnPipe s) : '|' ∉ t := by
  induction s generalizing t with
  | nil =>
    simp [splitOnPipe] at ht
    subst ht; simp
  | cons c s ih =>
    by_cases hc : c = '|'
    · subst hc
      rw [splitOnPipe_cons_pipe] at ht
      rcases List.mem_cons.mp ht with h | h
      · subst h; simp
      · exact ih t h
    · cases h : splitOnPipe s with
      | nil => exact absurd h (splitOnPipe_ne_nil s)
      | cons u us =>
        rw [splitOnPipe_cons_ne c s hc u us h] at ht
        rcases List.mem_cons.mp ht with h' | h'
        · subst h'
          intro hmem
          rcases List.mem_cons.mp hmem with h'' | h''
          · exact hc h''.symm
          · exact ih u (h ▸ List.mem_cons_self u us) h''
        · exact ih t (h ▸ List.mem_cons_of_mem u h')

theorem splitOnPipe_length (s : PyStr) :
    (splitOnPipe s).length = s.count '|' + 1 := by
  induction s with
  | nil => simp [splitOnPipe]
  | cons c s ih =>
    by_cases hc : c = '|'
    · subst hc
      rw [splitOnPipe_cons_pipe]
      simp [ih, List.count_cons]
    · cases h : splitOnPipe s with
      | nil => exact absurd h (splitOnPipe_ne_nil s)
      | cons u us =>
        rw [splitOnPipe_cons_ne c s hc u us h]
        rw [h] at ih
        simp only [List.length_cons] at ih ⊢
        rw [ih, List.count_cons]
        simp [hc]

/-! ### Integer-parsing lemmas -/

theorem pyDigitsRun_pipe (s : PyStr) (hs : '|' ∈ s) :
    ∀ st acc, pyDigitsRun st acc s = none := by
  induction s with
  | nil => simp at hs
  | cons c rest ih =>
    intro st acc
    by_cases hc : c = '|'
    · subst hc
      have h1 : (('|' : Char).isDigit) = false := by decide
      have h2 : ¬(('|' : Char) = '_' ∧ st = 1) := fun h => absurd h.1 (by decide)
      simp [pyDigitsRun, h1, h2]
    · have hr : '|' ∈ rest := by
        rcases List.mem_cons.mp hs with h | h
        · exact absurd h.symm hc
        · exact h
      unfold pyDigitsRun
      by_cases hd : c.isDigit
      · simp [hd, ih hr]
      · by_cases hu : c = '_' ∧ st = 1
        · simp [hd, hu, ih hr]
        · simp [hd, hu]

theorem mem_dropWhile (p : Char → Bool) (l : PyStr) (a : Char) (ha : a ∈ l)
    (hp : p a = false) : a ∈ l.dropWhile p := by
  induction l with
  | nil => simp at ha
  | cons b l ih =>
    rw [List.dropWhile_cons]
    by_cases hb : p b
    · rcases List.mem_cons.mp ha with h | h
      · subst h
        rw [hb] at hp
        cases hp
      · simp only [hb, if_true]
        exact ih h
    · simp only [hb]
      simpa using ha

theorem pipe_mem_pyTrim (s : PyStr) (hs : '|' ∈ s) : '|' ∈ pyTrim s := by
  have hw : (('|' : Char).isWhitespace) = false := by decide
  unfold pyTrim
  have h1 := mem_dropWhile Char.isWhitespace s '|' hs hw
  have h2 : '|' ∈ (s.dropWhile Char.isWhitespace).reverse := List.mem_reverse.mpr h1
  have h3 := mem_dropWhile Char.isWhitespace _ '|' h2 hw
  exact List.mem_reverse.mpr h3

theorem pyInt_pipe_none (s : PyStr) (hs : '|' ∈ s) : pyInt s = none := by
  have ht := pipe_mem_pyTrim s hs
  unfold pyInt
  cases h : pyTrim s with
  | nil => rfl
  | cons c rest =>
    rw [h] at ht
    by_cases h1 : c = '+'
    · subst h1
      have hr : '|' ∈ rest := by
        rcases List.mem_cons.mp ht with h' | h'
        · exact absurd h' (by decide)
        · exact h'
      simp [pyDigitsRun_pipe rest hr]
    · by_cases h2 : c = '-'
      · subst h2
        have hr : '|' ∈ rest := by
          rcases List.mem_cons.mp ht with h' | h'
          · exact absurd h' (by decide)
          · exact h'
        simp [h1, pyDigitsRun_pipe rest hr]
      · simp [h1, h2, pyDigitsRun_pipe (c :: rest) ht]

theorem digitChar_ne_pipe (n : Nat) : digitChar n ≠ '|' := by
  unfold digitChar
  split <;> decide

theorem natCharsAux_no_pipe (fuel : Nat) : ∀ n, '|' ∉ natCharsAux fuel n := by
  induction fuel with
  | zero => intro n; simp [natCharsAux]
  | succ fuel ih =>
    intro n
    unfold natCharsAux
    by_cases h : n < 10
    · simp only [if_pos h, List.mem_singleton]
      exact fun hh => digitChar_ne_pipe n hh.symm
    · simp only [if_neg h, List.mem_append, List.mem_singleton]
      rintro (hh | hh)
      · exact ih (n / 10) hh
      · exact digitChar_ne_pipe (n % 10) hh.symm

theorem pyStrOfInt_no_pipe (m : Int) : '|' ∉ pyStrOfInt m := by
  unfold pyStrOfInt natChars
  by_cases h : m < 0
  · simp only [if_pos h, List.mem_cons]
    rintro (hh | hh)
    · exact absurd hh (by decide)
    · exact natCharsAux_no_pipe _ _ hh
  · simp only [if_neg h]
    exact natCharsAux_no_pipe _ _

/-! ### Key-parsing lemmas -/

theorem split2_encode (level hw ms : PyStr) (hl : '|' ∉ level)
    (hh : '|' ∉ hw) :
    split2 (level ++ '|' :: (hw ++ '|' :: ms)) = some (level, hw, ms) := by
  unfold split2
  rw [splitOnPipe_append level _ hl, splitOnPipe_append hw ms hh]
  cases h : splitOnPipe ms with
  | nil => exact absurd h (splitOnPipe_ne_nil ms)
  | cons t ts =>
    have hj : joinPipe (t :: ts) = ms := by
      rw [← h]
      exact joinPipe_splitOnPipe ms
    simp [hj]

theorem split2_wordKey (level hw : PyStr) (m : Int) (hl : '|' ∉ level)
    (hh : '|' ∉ hw) :
    split2 (wordKey level hw m) = some (level, hw, pyStrOfInt m) :=
  split2_encode level hw (pyStrOfInt m) hl hh

theorem split2_third_pipe (s : PyStr) (h3 : 3 ≤ s.count '|') :
    ∃ a b c, split2 s = some (a, b, c) ∧ '|' ∈ c := by
  have hlen : 4 ≤ (splitOnPipe s).length := by
    rw [splitOnPipe_length]
    omega
  cases hsp : splitOnPipe s with
  | nil => rw [hsp] at hlen; simp at hlen
  | cons a l1 =>
    cases l1 with
    | nil => rw [hsp] at hlen; simp at hlen
    | cons b l2 =>
      cases l2 with
      | nil => rw [hsp] at hlen; simp at hlen
      | cons c l3 =>
        cases l3 with
        | nil => rw [hsp] at hlen; simp at hlen
        | cons d rest =>
          refine ⟨a, b, joinPipe (c :: d :: rest), ?_, ?_⟩
          · unfold split2
            rw [hsp]
          · show '|' ∈ joinPipe (c :: d :: rest)
            simp only [joinPipe, List.mem_append, List.mem_cons]
            right
            left
            trivial

theorem count_pipe_wordKey (level hw : PyStr) (m : Int) (hh : '|' ∈ hw) :
    3 ≤ (wordKey level hw m).count '|' := by
  have h1 : 0 < hw.count '|' := List.count_pos_iff.mpr hh
  simp only [wordKey, List.count_append, List.count_cons]
  simp
  omega

theorem totalsStep_pipe_hw (level lvl hw : PyStr) (m : Int) (hh : '|' ∈ hw)
    (totals : List (PyStr × Int)) (r : WordRec) :
    totalsStep level totals (wordKey lvl hw m, r) = totals := by
  obtain ⟨a, b, c, hsplit, hc⟩ :=
    split2_third_pipe _ (count_pipe_wordKey lvl hw m hh)
  unfold totalsStep
  rw [hsplit]
  simp [pyInt_pipe_none c hc]

/-! ### Totals lemmas -/

theorem totalsStep_lookup (level hw : PyStr) (d : List (PyStr × Int))
    (kv : PyStr × WordRec) :
    dictGet (totalsStep level d kv) hw
      = (dictGet d hw).map (· + entryContrib level hw kv) := by
  unfold totalsStep entryContrib
  cases hs : split2 kv.1 with
  | none => cases hd : dictGet d hw <;> simp [hd]
  | some t =>
    obtain ⟨lvl, h, ms⟩ := t
    cases hm : pyInt ms with
    | none => cases hd : dictGet d hw <;> simp [hm, hd]
    | some mode =>
      by_cases hlvl : lvl = level
      · subst hlvl
        by_cases hhw : h = hw
        · subst hhw
          cases hd : dictGet d h with
          | none => simp [hm, hd]
          | some t =>
            by_cases hrange : 1 ≤ mode ∧ mode ≤ 5
            · simp [hm, hd, hrange, dictGet_dictSet_self]
            · simp [hm, hd, hrange]
        · cases hd : dictGet d h with
          | none =>
            cases hd' : dictGet d hw <;> simp [hm, hd, hd', hhw]
          | some t =>
            by_cases hrange : 1 ≤ mode ∧ mode ≤ 5
            · have hne : hw ≠ h := fun he => hhw he.symm
              cases hd' : dictGet d hw <;>
                simp [hm, hd, hd', hhw, hrange, dictGet_dictSet_ne d h hw _ hne]
            · cases hd' : dictGet d hw <;> simp [hm, hd, hd', hhw, hrange]
      · cases hd : dictGet d hw <;> simp [hm, hd, hlvl]

theorem totals_fold_lookup (level hw : PyStr) (ws : List (PyStr × WordRec)) :
    ∀ d, dictGet (ws.foldl (totalsStep level) d) hw
      = (dictGet d hw).map (· + (ws.map (entryContrib level hw)).sum) := by
  induction ws with
  | nil =>
    intro d
    cases hd : dictGet d hw <;> simp [hd]
  | cons kv ws ih =>
    intro d
    rw [List.foldl_cons, ih, totalsStep_lookup, Option.map_map]
    cases hd : dictGet d hw <;>
      simp [hd, List.sum_cons, Function.comp, add_assoc]

theorem totals_init_lookup (headwords : List PyStr) (hw : PyStr) :
    ∀ d : List (PyStr × Int),
      dictGet (headwords.foldl (fun d h => dictSet d h 5) d) hw
      = if hw ∈ headwords then some 5 else dictGet d hw := by
  induction headwords with
  | nil =>
    intro d
    simp
  | cons h hws ih =>
    intro d
    rw [List.foldl_cons, ih]
    by_cases hh : hw ∈ hws
    · simp [hh]
    · by_cases he : hw = h
      · subst he
        simp [hh, dictGet_dictSet_self]
      · simp [List.mem_cons, hh, he, dictGet_dictSet_ne d h hw 5 he]

theorem totals_lookup (p : Progress) (level : PyStr) (headwords : List PyStr)
    (hw : PyStr) :
    dictGet (get_all_word_totals p level headwords) hw
      = if hw ∈ headwords
        then some (5 + (p.word_scores.map (entryContrib level hw)).sum)
        else none := by
  unfold get_all_word_totals
  rw [totals_fold_lookup, totals_init_lookup]
  by_cases hh : hw ∈ headwords <;> simp [hh, dictGet, add_comm]

theorem entryContrib_pipe_hw (level hw : PyStr) (kv : PyStr × WordRec)
    (hh : '|' ∈ hw) : entryContrib level hw kv = 0 := by
  unfold entryContrib
  cases hs : split2 kv.1 with
  | none => rfl
  | some t =>
    obtain ⟨lvl, h, ms⟩ := t
    cases hm : pyInt ms with
    | none => simp [hm]
    | some mode =>
      have hb : h ∈ splitOnPipe kv.1 := by
        unfold split2 at hs
        cases hsp : splitOnPipe kv.1 with
        | nil => rw [hsp] at hs; cases hs
        | cons a l1 =>
          cases l1 with
          | nil => rw [hsp] at hs; cases hs
          | cons b l2 =>
            cases l2 with
            | nil => rw [hsp] at hs; cases hs
            | cons c rest =>
              rw [hsp] at hs
              injection hs with hs'
              have hbh : b = h := congrArg (fun t => t.2.1) hs'
              rw [← hbh]
              exact List.mem_cons_of_mem a (List.mem_cons_self b _)
      have hnope : '|' ∉ h := splitOnPipe_no_pipe kv.1 h hb
      have hcond : ¬(lvl = level ∧ h = hw ∧ 1 ≤ mode ∧ mode ≤ 5) := by
        rintro ⟨-, hbe, -⟩
        rw [hbe] at hnope
        exact hnope hh
      simp [hm, hcond]

theorem totals_pipe_hw (p : Progress) (level : PyStr) (headwords : List PyStr)
    (hw : PyStr) (hmem : hw ∈ headwords) (hh : '|' ∈ hw) :
    dictGet (get_all_word_totals p level headwords) hw = some 5 := by
  rw [totals_lookup, if_pos hmem]
  have hz : (p.word_scores.map (entryContrib level hw)).sum = 0 := by
    apply List.sum_eq_zero
    intro x hx
    obtain ⟨kv, hkv, rfl⟩ := List.mem_map.mp hx
    exact entryContrib_pipe_hw level hw kv hh
  rw [hz]
  norm_num

/-! ### Canonical-store correspondence with the spec totals formula -/

theorem wordKey_inj_mode (level hw : PyStr) (j j' : Int)
    (h : wordKey level hw j = wordKey level hw j') :
    pyStrOfInt j = pyStrOfInt j' := by
  unfold wordKey at h
  have h1 := List.append_cancel_left h
  injection h1 with _ h2
  have h3 := List.append_cancel_left h2
  injection h3 with _ h4

theorem wordKey_mode_ne (level hw : PyStr) (j j' : Int)
    (hd : pyStrOfInt j ≠ pyStrOfInt j') :
    wordKey level hw j ≠ wordKey level hw j' :=
  fun h => hd (wordKey_inj_mode level hw j j' h)

theorem sum_ite_key_nodup (K : PyStr) (f : WordRec → Int)
    (ws : List (PyStr × WordRec)) (hnd : (ws.map Prod.fst).Nodup) :
    (ws.map (fun kv => if kv.1 = K then f kv.2 else 0)).sum
      = ((dictGet ws K).map f).getD 0 := by
  induction ws with
  | nil => simp [dictGet]
  | cons kv ws ih =>
    simp only [List.map_cons, List.nodup_cons] at hnd
    obtain ⟨hnotin, hnd'⟩ := hnd
    rw [List.map_cons, List.sum_cons]
    by_cases hk : kv.1 = K
    · have hz : (ws.map (fun kv' => if kv'.1 = K then f kv'.2 else 0)).sum = 0 := by
        apply List.sum_eq_zero
        intro x hx
        obtain ⟨kv', hkv', rfl⟩ := List.mem_map.mp hx
        have hne : kv'.1 ≠ K := by
          intro he
          apply hnotin
          rw [hk, ← he]
          exact List.mem_map.mpr ⟨kv', hkv', rfl⟩
        simp [hne]
      simp [dictGet, hk, hz]
    · simp [dictGet, hk, ih hnd']

theorem modeContrib_eq_getD (p : Progress) (level hw : PyStr) (m : Int) :
    modeContrib p level hw m
      = ((dictGet p.word_scores (wordKey level hw m)).map
          (fun r => r.score - 1)).getD 0 := by
  unfold modeContrib
  cases h : dictGet p.word_scores (wordKey level hw m) <;> simp [h]

theorem sum_map_five (l : List (PyStr × WordRec))
    (f1 f2 f3 f4 f5 : PyStr × WordRec → Int) :
    (l.map (fun kv => f1 kv + f2 kv + f3 kv + f4 kv + f5 kv)).sum
      = (l.map f1).sum + (l.map f2).sum + (l.map f3).sum + (l.map f4).sum
        + (l.map f5).sum := by
  induction l with
  | nil => simp
  | cons kv l ih =>
    simp only [List.map_cons, List.sum_cons, ih]
    ring

theorem entryContrib_eq_modes (level hw : PyStr) (kv : PyStr × WordRec)
    (hl : '|' ∉ level) (hh : '|' ∉ hw) (hcanon : keyCanonB kv.1 = true) :
    entryContrib level hw kv
      = (if kv.1 = wordKey level hw 1 then kv.2.score - 1 else 0)
      + (if kv.1 = wordKey level hw 2 then kv.2.score - 1 else 0)
      + (if kv.1 = wordKey level hw 3 then kv.2.score - 1 else 0)
      + (if kv.1 = wordKey level hw 4 then kv.2.score - 1 else 0)
      + (if kv.1 = wordKey level hw 5 then kv.2.score - 1 else 0) := by
  unfold entryContrib
  cases hs : split2 kv.1 with
  | none =>
    have hne : ∀ j : Int, kv.1 ≠ wordKey level hw j := by
      intro j he
      rw [he, split2_wordKey level hw j hl hh] at hs
      cases hs
    simp [hne 1, hne 2, hne 3, hne 4, hne 5]
  | some t =>
    obtain ⟨lvl, h, ms⟩ := t
    cases hm : pyInt ms with
    | none =>
      have hne : ∀ j : Int, pyInt (pyStrOfInt j) = some j →
          kv.1 ≠ wordKey level hw j := by
        intro j hj he
        rw [he, split2_wordKey level hw j hl hh] at hs
        injection hs with hs'
        have hms : ms = pyStrOfInt j := (congrArg (fun t => t.2.2) hs').symm
        rw [hms, hj] at hm
        cases hm
      simp [hm, hne 1 (by decide), hne 2 (by decide), hne 3 (by decide),
        hne 4 (by decide), hne 5 (by decide)]
    | some mode =>
      by_cases hcond : lvl = level ∧ h = hw ∧ 1 ≤ mode ∧ mode ≤ 5
      · obtain ⟨hlv, hhw, hm1, hm2⟩ := hcond
        subst hlv
        subst hhw
        have hkey : kv.1 = wordKey lvl h mode := by
          unfold keyCanonB at hcanon
          rw [hs] at hcanon
          simp only [hm] at hcanon
          exact of_decide_eq_true hcanon
        have hmode : mode = 1 ∨ mode = 2 ∨ mode = 3 ∨ mode = 4 ∨ mode = 5 := by
          omega
        have htrue : (lvl = lvl ∧ h = h ∧ 1 ≤ mode ∧ mode ≤ 5) := ⟨rfl, rfl, hm1, hm2⟩
        rcases hmode with rfl | rfl | rfl | rfl | rfl
        · simp [hm, htrue, hkey, wordKey_mode_ne lvl h 1 2 (by decide),
            wordKey_mode_ne lvl h 1 3 (by decide),
            wordKey_mode_ne lvl h 1 4 (by decide),
            wordKey_mode_ne lvl h 1 5 (by decide)]
        · simp [hm, htrue, hkey, wordKey_mode_ne lvl h 2 1 (by decide),
            wordKey_mode_ne lvl h 2 3 (by decide),
            wordKey_mode_ne lvl h 2 4 (by decide),
            wordKey_mode_ne lvl h 2 5 (by decide)]
        · simp [hm, htrue, hkey, wordKey_mode_ne lvl h 3 1 (by decide),
            wordKey_mode_ne lvl h 3 2 (by decide),
            wordKey_mode_ne lvl h 3 4 (by decide),
            wordKey_mode_ne lvl h 3 5 (by decide)]
        · simp [hm, htrue, hkey, wordKey_mode_ne lvl h 4 1 (by decide),
            wordKey_mode_ne lvl h 4 2 (by decide),
            wordKey_mode_ne lvl h 4 3 (by decide),
            wordKey_mode_ne lvl h 4 5 (by decide)]
        · simp [hm, htrue, hkey, wordKey_mode_ne lvl h 5 1 (by decide),
            wordKey_mode_ne lvl h 5 2 (by decide),
            wordKey_mode_ne lvl h 5 3 (by decide),
            wordKey_mode_ne lvl h 5 4 (by decide)]
      · have hne : ∀ j : Int, pyInt (pyStrOfInt j) = some j → 1 ≤ j → j ≤ 5 →
            kv.1 ≠ wordKey level hw j := by
          intro j hj hj1 hj5 he
          rw [he, split2_wordKey level hw j hl hh] at hs
          injection hs with hs'
          have hlv : level = lvl := congrArg (fun t => t.1) hs'
          have hhw : hw = h := congrArg (fun t => t.2.1) hs'
          have hms : pyStrOfInt j = ms := congrArg (fun t => t.2.2) hs'
          rw [← hms, hj] at hm
          injection hm with hm'
          exact hcond ⟨hlv.symm, hhw.symm, by omega, by omega⟩
        simp [hm, hcond, hne 1 (by decide) (by decide) (by decide),
          hne 2 (by decide) (by decide) (by decide),
          hne 3 (by decide) (by decide) (by decide),
          hne 4 (by decide) (by decide) (by decide),
          hne 5 (by decide) (by decide) (by decide)]

theorem totals_eq_spec (p : Progress) (level : PyStr) (headwords : List PyStr)
    (hw : PyStr) (hmem : hw ∈ headwords) (hl : '|' ∉ level) (hh : '|' ∉ hw)
    (hnd : (p.word_scores.map Prod.fst).Nodup)
    (hcanon : ∀ kv ∈ p.word_scores, keyCanonB kv.1 = true) :
    dictGet (get_all_word_totals p level headwords) hw
      = some (specWordTotal p level hw) := by
  rw [totals_lookup, if_pos hmem]
  have hmapeq : p.word_scores.map (entryContrib level hw)
      = p.word_scores.map (fun kv =>
          (if kv.1 = wordKey level hw 1 then kv.2.score - 1 else 0)
        + (if kv.1 = wordKey level hw 2 then kv.2.score - 1 else 0)
        + (if kv.1 = wordKey level hw 3 then kv.2.score - 1 else 0)
        + (if kv.1 = wordKey level hw 4 then kv.2.score - 1 else 0)
        + (if kv.1 = wordKey level hw 5 then kv.2.score - 1 else 0)) := by
    apply List.map_congr_left
    intro kv hkv
    exact entryContrib_eq_modes level hw kv hl hh (hcanon kv hkv)
  rw [hmapeq, sum_map_five,
    sum_ite_key_nodup (wordKey level hw 1) (fun r => r.score - 1) _ hnd,
    sum_ite_key_nodup (wordKey level hw 2) (fun r => r.score - 1) _ hnd,
    sum_ite_key_nodup (wordKey level hw 3) (fun r => r.score - 1) _ hnd,
    sum_ite_key_nodup (wordKey level hw 4) (fun r => r.score - 1) _ hnd,
    sum_ite_key_nodup (wordKey level hw 5) (fun r => r.score - 1) _ hnd]
  unfold specWordTotal
  rw [modeContrib_eq_getD, modeContrib_eq_getD, modeContrib_eq_getD,
    modeContrib_eq_getD, modeContrib_eq_getD]
  congr 1
  ring

/-! ### Weighted-selection lemmas -/

theorem foldl_add_shift (l : List Int) :
    ∀ x, l.foldl (· + ·) x = x + l.foldl (· + ·) 0 := by
  induction l with
  | nil => intro x; simp
  | cons a l ih =>
    intro x
    simp only [List.foldl_cons]
    rw [ih (x + a), ih (0 + a)]
    ring

theorem intSum_cons (a : Int) (l : List Int) :
    intSum (a :: l) = a + intSum l := by
  unfold intSum
  simp only [List.foldl_cons]
  rw [foldl_add_shift l (0 + a)]
  ring

theorem intSum_nonneg (l : List Int) (h : ∀ x ∈ l, 0 ≤ x) : 0 ≤ intSum l := by
  induction l with
  | nil => simp [intSum]
  | cons a l ih =>
    rw [intSum_cons]
    have ha := h a (List.mem_cons_self a l)
    have hl := ih (fun x hx => h x (List.mem_cons_of_mem a hx))
    omega

theorem weightedPick_lt :
    ∀ (ws : List Int), ws ≠ [] → ∀ u : Int, weightedPick ws u < ws.length
  | [], h, _ => absurd rfl h
  | [_], _, _ => by simp [weightedPick]
  | w :: w2 :: ws, _, u => by
    unfold weightedPick
    by_cases hu : u < w
    · simp [hu]
    · simp only [if_neg hu, List.length_cons]
      have h := weightedPick_lt (w2 :: ws) (by simp) (u - w)
      simp only [List.length_cons] at h
      omega

theorem weightedPick_count :
    ∀ (ws : List Int), (∀ x ∈ ws, 0 ≤ x) → ∀ i : Nat,
      ((List.range (intSum ws).toNat).countP
        (fun u : Nat => weightedPick ws (u : Int) = i)) = (ws.getD i 0).toNat
  | [], _, i => by
    simp only [intSum, List.foldl_nil, Int.toNat_zero, List.range_zero,
      List.countP_nil]
    cases i <;> simp
  | [w], _, i => by
    have hs : intSum [w] = w := by
      rw [intSum_cons]
      simp [intSum]
    cases i with
    | zero =>
      have hall : ∀ u ∈ List.range w.toNat,
          (fun u : Nat => decide (weightedPick [w] (u : Int) = 0)) u = true := by
        intro u _
        simp [weightedPick]
      rw [hs, List.countP_eq_length.mpr hall, List.length_range]
      simp
    | succ j =>
      have hall : ∀ u ∈ List.range (intSum [w]).toNat,
          ¬(fun u : Nat => decide (weightedPick [w] (u : Int) = j + 1)) u = true := by
        intro u _
        simp [weightedPick]
      rw [List.countP_eq_zero.mpr hall]
      simp
  | w :: w2 :: ws, hnn, i => by
    have hw0 : 0 ≤ w := hnn w (List.mem_cons_self _ _)
    have htail : ∀ x ∈ w2 :: ws, 0 ≤ x :=
      fun x hx => hnn x (List.mem_cons_of_mem _ hx)
    have hT : 0 ≤ intSum (w2 :: ws) := intSum_nonneg _ htail
    rw [intSum_cons, Int.toNat_add hw0 hT, List.range_add, List.countP_append,
      List.countP_map]
    have hpick_lo : ∀ u : Nat, u < w.toNat →
        weightedPick (w :: w2 :: ws) (u : Int) = 0 := by
      intro u hu
      have hcond : (u : Int) < w := by omega
      simp [weightedPick, hcond]
    have hpick_hi : ∀ v : Nat,
        weightedPick (w :: w2 :: ws) ((w.toNat + v : Nat) : Int)
          = weightedPick (w2 :: ws) (v : Int) + 1 := by
      intro v
      have hcond : ¬((w.toNat + v : Nat) : Int) < w := by
        push_cast
        omega
      have harg : ((w.toNat + v : Nat) : Int) - w = (v : Int) := by
        push_cast
        omega
      simp only [weightedPick]
      rw [if_neg hcond, harg]
    cases i with
    | zero =>
      have h1 : (List.range w.toNat).countP
          (fun u : Nat => weightedPick (w :: w2 :: ws) (u : Int) = 0)
          = w.toNat := by
        have hall : ∀ u ∈ List.range w.toNat,
            (fun u : Nat =>
              decide (weightedPick (w :: w2 :: ws) (u : Int) = 0)) u = true := by
          intro u hu
          rw [List.mem_range] at hu
          simp [hpick_lo u hu]
        rw [List.countP_eq_length.mpr hall, List.length_range]
      have h2 : (List.range (intSum (w2 :: ws)).toNat).countP
          ((fun u : Nat => weightedPick (w :: w2 :: ws) (u : Int) = 0)
            ∘ (fun x => w.toNat + x)) = 0 := by
        have hall : ∀ v ∈ List.range (intSum (w2 :: ws)).toNat,
            ¬((fun u : Nat =>
                decide (weightedPick (w :: w2 :: ws) (u : Int) = 0))
              ∘ (fun x => w.toNat + x)) v = true := by
          intro v _
          simp only [Function.comp, decide_eq_true_eq]
          rw [hpick_hi v]
          simp
        rw [List.countP_eq_zero.mpr hall]
      rw [h1, h2]
      simp
    | succ j =>
      have h1 : (List.range w.toNat).countP
          (fun u : Nat => weightedPick (w :: w2 :: ws) (u : Int) = j + 1)
          = 0 := by
        have hall : ∀ u ∈ List.range w.toNat,
            ¬(fun u : Nat =>
                decide (weightedPick (w :: w2 :: ws) (u : Int) = j + 1)) u
              = true := by
          intro u hu
          rw [List.mem_range] at hu
          simp [hpick_lo u hu]
        rw [List.countP_eq_zero.mpr hall]
      have h2 : (List.range (intSum (w2 :: ws)).toNat).countP
          ((fun u : Nat => weightedPick (w :: w2 :: ws) (u : Int) = j + 1)
            ∘ (fun x => w.toNat + x))
          = (List.range (intSum (w2 :: ws)).toNat).countP
            (fun v : Nat => weightedPick (w2 :: ws) (v : Int) = j) := by
        apply List.countP_congr
        intro v _
        simp only [Function.comp, decide_eq_true_eq, hpick_hi v]
        omega
      rw [h1, h2, weightedPick_count (w2 :: ws) htail j]
      simp

theorem itemWeights_nonneg (p : Progress) (level : PyStr)
    (headwords : List PyStr) : ∀ x ∈ itemWeights p level headwords, 0 ≤ x := by
  intro x hx
  unfold itemWeights at hx
  obtain ⟨hw, _, rfl⟩ := List.mem_map.mp hx
  by_cases h : (51 - ((dictGet (get_all_word_totals p level headwords) hw).getD 5) : Int) < 0
  · simp [h]
  · simp only [if_neg h]
    omega

theorem itemWeights_length (p : Progress) (level : PyStr)
    (headwords : List PyStr) :
    (itemWeights p level headwords).length = headwords.length := by
  unfold itemWeights
  simp

/-! ### Grammar-read lemmas -/

theorem startsWithKey_append (a b : PyStr) : startsWithKey a (a ++ b) = true := by
  induction a with
  | nil => rfl
  | cons c a ih => simp [startsWithKey, ih]

theorem startsWithKey_exists (pre s : PyStr) (h : startsWithKey pre s = true) :
    ∃ rest, s = pre ++ rest := by
  induction pre generalizing s with
  | nil => exact ⟨s, rfl⟩
  | cons c pre ih =>
    cases s with
    | nil => simp [startsWithKey] at h
    | cons d s' =>
      simp only [startsWithKey, Bool.and_eq_true, decide_eq_true_eq] at h
      obtain ⟨rfl, h2⟩ := h
      obtain ⟨rest, rfl⟩ := ih s' h2
      exact ⟨rest, rfl⟩

theorem afterFirstPipe_append (a rest : PyStr) (ha : '|' ∉ a) :
    afterFirstPipe (a ++ '|' :: rest) = rest := by
  induction a with
  | nil => simp [afterFirstPipe]
  | cons c a ih =>
    have hc : c ≠ '|' := fun h => ha (h ▸ List.mem_cons_self c a)
    have ha' : '|' ∉ a := fun h => ha (List.mem_cons_of_mem c h)
    show afterFirstPipe (c :: (a ++ '|' :: rest)) = rest
    unfold afterFirstPipe
    rw [if_neg hc]
    exact ih ha'

theorem readNames_mem_iff (p : Progress) (level n : PyStr)
    (hl : '|' ∉ level) :
    n ∈ readNamesOf p level
      ↔ (dictGet p.grammar_reads (grammarKey level n)).isSome := by
  unfold readNamesOf
  rw [List.mem_filterMap, dictGet_isSome_iff]
  constructor
  · rintro ⟨kv, hkv, hval⟩
    by_cases hstart : startsWithKey (level ++ ['|']) kv.1 = true
    · rw [if_pos hstart] at hval
      injection hval with hval
      obtain ⟨rest, hrest⟩ := startsWithKey_exists _ _ hstart
      have hkey : kv.1 = level ++ '|' :: rest := by
        rw [hrest, List.append_assoc]
        rfl
      rw [hkey, afterFirstPipe_append level rest hl] at hval
      subst hval
      refine ⟨kv.2, ?_⟩
      have hgk : grammarKey level rest = kv.1 := by
        rw [hkey]
        rfl
      rw [hgk]
      exact hkv
    · rw [if_neg hstart] at hval
      cases hval
  · rintro ⟨v, hv⟩
    refine ⟨(grammarKey level n, v), hv, ?_⟩
    have hstart : startsWithKey (level ++ ['|']) (grammarKey level n) = true := by
      have : grammarKey level n = (level ++ ['|']) ++ n := by
        unfold grammarKey
        rw [List.append_assoc]
        rfl
      rw [this]
      exact startsWithKey_append _ _
    rw [if_pos hstart]
    unfold grammarKey
    rw [afterFirstPipe_append level n hl]

theorem stats_eq_countP (p : Progress) (level : PyStr) (names : List PyStr)
    (hl : '|' ∉ level) :
    get_grammar_read_stats p level names
      = (names.countP
          (fun n => (dictGet p.grammar_reads (grammarKey level n)).isSome),
        names.length) := by
  show (names.countP (fun n => decide (n ∈ readNamesOf p level)), names.length)
    = _
  refine congrArg (fun c => (c, names.length)) ?_
  apply List.countP_congr
  intro n _
  simp only [decide_eq_true_eq]
  rw [readNames_mem_iff p level n hl]

theorem readNamesOf_eq_of_keys (p q : Progress) (level : PyStr)
    (h : p.grammar_reads.map Prod.fst = q.grammar_reads.map Prod.fst) :
    readNamesOf p level = readNamesOf q level := by
  unfold readNamesOf
  have hswap : ∀ gr : List (PyStr × GrammarRec),
      gr.filterMap (fun kv =>
        if startsWithKey (level ++ ['|']) kv.1 then some (afterFirstPipe kv.1)
        else none)
      = (gr.map Prod.fst).filterMap (fun k =>
          if startsWithKey (level ++ ['|']) k then some (afterFirstPipe k)
          else none) := by
    intro gr
    rw [List.filterMap_map]
    rfl
  rw [hswap, hswap, h]

theorem stats_eq_of_keys (p q : Progress) (level : PyStr) (names : List PyStr)
    (h : p.grammar_reads.map Prod.fst = q.grammar_reads.map Prod.fst) :
    get_grammar_read_stats p level names = get_grammar_read_stats q level names := by
  unfold get_grammar_read_stats
  rw [readNamesOf_eq_of_keys p q level h]

/-! ### Store-operation helper lemmas -/

theorem get_after_set (p : Progress) (level hw : PyStr) (mode s : Int)
    (t : PyStr) :
    get_word_mode_score (set_word_mode_score p level hw mode s t) level hw mode
      = (s, (get_word_mode_score p level hw mode).2 + 1) := by
  unfold get_word_mode_score set_word_mode_score
  simp only [dictGet_dictSet_self]
  rfl

theorem set_word_scores_eq (p : Progress) (level hw : PyStr) (mode s : Int)
    (t : PyStr) :
    (set_word_mode_score p level hw mode s t).word_scores
      = dictSet p.word_scores (wordKey level hw mode)
          { score := s, attempts := (get_word_mode_score p level hw mode).2 + 1,
            updated_at := t } := rfl

theorem mark_new (p : Progress) (level name now : PyStr)
    (h : dictGet p.grammar_reads (grammarKey level name) = none) :
    dictGet (mark_grammar_read p level name now).grammar_reads
      (grammarKey level name)
      = some { read_count := 1, last_read_at := now } := by
  unfold mark_grammar_read
  rw [h]
  simp [dictGet_dictSet_self]

theorem mark_existing (p : Progress) (level name now : PyStr) (r : GrammarRec)
    (h : dictGet p.grammar_reads (grammarKey level name) = some r) :
    dictGet (mark_grammar_read p level name now).grammar_reads
      (grammarKey level name)
      = some { read_count := r.read_count + 1, last_read_at := now } := by
  unfold mark_grammar_read
  rw [h]
  simp [dictGet_dictSet_self]

theorem mark_word_scores (p : Progress) (level name now : PyStr) :
    (mark_grammar_read p level name now).word_scores = p.word_scores := by
  unfold mark_grammar_read
  cases h : dictGet p.grammar_reads (grammarKey level name) <;> rfl

theorem mark_keys_of_present (p : Progress) (level name now : PyStr)
    (h : (dictGet p.grammar_reads (grammarKey level name)).isSome) :
    (mark_grammar_read p level name now).grammar_reads.map Prod.fst
      = p.grammar_reads.map Prod.fst := by
  unfold mark_grammar_read
  cases hh : dictGet p.grammar_reads (grammarKey level name) with
  | none =>
    rw [hh] at h
    simp at h
  | some r =>
    simp only
    exact dictSet_map_fst p.grammar_reads (grammarKey level name) _
      (by rw [hh]; rfl)

theorem mark_grammar_reads_other (p : Progress) (level name now : PyStr)
    (k : PyStr) (hk : k ≠ grammarKey level name) :
    dictGet (mark_grammar_read p level name now).grammar_reads k
      = dictGet p.grammar_reads k := by
  unfold mark_grammar_read
  cases hh : dictGet p.grammar_reads (grammarKey level name) <;>
    simp [dictGet_dictSet_ne _ _ _ _ hk]

/-! ### Claim theorems -/

/-- C3: on a never-set (level, headword, mode) the score reads back as
(1, 0) and never fails; setting 10 yields (10, 1), then setting 0 yields
(0, 2); in general each set stores exactly the new score and increments
attempts by one. -/
theorem word_mode_score_lifecycle (p : Progress) (level hw : PyStr)
    (mode : Int) (t1 t2 : PyStr)
    (habs : dictGet p.word_scores (wordKey level hw mode) = none) :
    get_word_mode_score p level hw mode = (1, 0)
    ∧ (∀ (q : Progress) (s : Int) (t : PyStr),
        get_word_mode_score (set_word_mode_score q level hw mode s t) level hw
          mode = (s, (get_word_mode_score q level hw mode).2 + 1))
    ∧ get_word_mode_score (set_word_mode_score p level hw mode 10 t1) level hw
        mode = (10, 1)
    ∧ get_word_mode_score
        (set_word_mode_score (set_word_mode_score p level hw mode 10 t1) level
          hw mode 0 t2) level hw mode = (0, 2) := by
  have hget : get_word_mode_score p level hw mode = (1, 0) := by
    unfold get_word_mode_score
    rw [habs]
  refine ⟨hget, fun q s t => get_after_set q level hw mode s t, ?_, ?_⟩
  · rw [get_after_set, hget]
    norm_num
  · rw [get_after_set, get_after_set, hget]
    norm_num

/-- C3 witness: the lifecycle at a concrete key on the fresh store. -/
theorem word_mode_score_lifecycle_witness :
    get_word_mode_score ensure_progress ['A', '1'] ['d', 'o', 'g'] 3 = (1, 0)
    ∧ (∀ (q : Progress) (s : Int) (t : PyStr),
        get_word_mode_score
          (set_word_mode_score q ['A', '1'] ['d', 'o', 'g'] 3 s t) ['A', '1']
          ['d', 'o', 'g'] 3
          = (s, (get_word_mode_score q ['A', '1'] ['d', 'o', 'g'] 3).2 + 1))
    ∧ get_word_mode_score
        (set_word_mode_score ensure_progress ['A', '1'] ['d', 'o', 'g'] 3 10
          ['t']) ['A', '1'] ['d', 'o', 'g'] 3 = (10, 1)
    ∧ get_word_mode_score
        (set_word_mode_score
          (set_word_mode_score ensure_progress ['A', '1'] ['d', 'o', 'g'] 3 10
            ['t']) ['A', '1'] ['d', 'o', 'g'] 3 0 ['u']) ['A', '1']
        ['d', 'o', 'g'] 3 = (0, 2) :=
  word_mode_score_lifecycle ensure_progress ['A', '1'] ['d', 'o', 'g'] 3 ['t']
    ['u'] (by decide)

/-- C4: exporting and importing the document into a fresh store reproduces
every word-mode score and every grammar-read statistic (round-trip law). -/
theorem export_import_roundtrip (p : Progress) (ts : PyStr) :
    (import_progress_json ensure_progress (export_progress_json p ts)).2 = none
    ∧ (∀ (level hw : PyStr) (mode : Int),
        get_word_mode_score
          (import_progress_json ensure_progress
            (export_progress_json p ts)).1 level hw mode
          = get_word_mode_score p level hw mode)
    ∧ (∀ (level : PyStr) (names : List PyStr),
        get_grammar_read_stats
          (import_progress_json ensure_progress
            (export_progress_json p ts)).1 level names
          = get_grammar_read_stats p level names) :=
  ⟨rfl, fun _ _ _ => rfl, fun _ _ => rfl⟩

/-- C5: importing a document missing either top-level collection fails with
the FormatError and returns the store exactly as it was. -/
theorem import_missing_rejects (p : Progress) (d : Document)
    (h : d.word_scores = none ∨ d.grammar_reads = none) :
    import_progress_json p d = (p, some ImpError.FormatError) := by
  unfold import_progress_json
  cases hws : d.word_scores with
  | none => cases hgr : d.grammar_reads <;> rfl
  | some ws =>
    cases hgr : d.grammar_reads with
    | none => rfl
    | some gr =>
      rw [hws, hgr] at h
      rcases h with h | h <;> cases h

/-- C5 witness: rejecting a concrete document with no grammar_reads leaves
a concrete non-empty store untouched. -/
theorem import_missing_rejects_witness :
    import_progress_json (⟨[(['k'], ⟨10, 1, ['t']⟩)], []⟩ : Progress)
      (⟨some 1, some ['t'], some [], none⟩ : Document)
      = (⟨[(['k'], ⟨10, 1, ['t']⟩)], []⟩, some ImpError.FormatError) :=
  import_missing_rejects _ _ (by decide)

/-- C6: a successful import replaces both entry collections with exactly
the document's contents; entries absent from the document are gone no
matter what the store held before. -/
theorem import_success_replaces (p : Progress) (d : Document)
    (ws : List (PyStr × WordRec)) (gr : List (PyStr × GrammarRec))
    (h1 : d.word_scores = some ws) (h2 : d.grammar_reads = some gr) :
    import_progress_json p d
      = ({ word_scores := ws, grammar_reads := gr }, none)
    ∧ (∀ k, dictGet (import_progress_json p d).1.word_scores k = dictGet ws k)
    ∧ (∀ k, dictGet (import_progress_json p d).1.grammar_reads k
        = dictGet gr k)
    ∧ (∀ k, dictGet ws k = none →
        dictGet (import_progress_json p d).1.word_scores k = none)
    ∧ (∀ k, dictGet gr k = none →
        dictGet (import_progress_json p d).1.grammar_reads k = none) := by
  have himp : import_progress_json p d
      = ({ word_scores := ws, grammar_reads := gr }, none) := by
    unfold import_progress_json
    rw [h1, h2]
  refine ⟨himp, fun k => by rw [himp], fun k => by rw [himp],
    fun k hk => by rw [himp]; exact hk, fun k hk => by rw [himp]; exact hk⟩

/-- C6 witness: importing a concrete one-entry document over a concrete
store with a different entry keeps only the document's entry. -/
theorem import_success_replaces_witness :
    import_progress_json (⟨[(['o'], ⟨5, 2, ['s']⟩)], []⟩ : Progress)
      (⟨some 1, some ['t'], some [(['n'], ⟨10, 1, ['t']⟩)], some []⟩ :
        Document)
      = (⟨[(['n'], ⟨10, 1, ['t']⟩)], []⟩, none)
    ∧ dictGet
        (import_progress_json (⟨[(['o'], ⟨5, 2, ['s']⟩)], []⟩ : Progress)
          (⟨some 1, some ['t'], some [(['n'], ⟨10, 1, ['t']⟩)], some []⟩ :
            Document)).1.word_scores ['o'] = none :=
  ⟨(import_success_replaces ⟨[(['o'], ⟨5, 2, ['s']⟩)], []⟩
      ⟨some 1, some ['t'], some [(['n'], ⟨10, 1, ['t']⟩)], some []⟩
      [(['n'], ⟨10, 1, ['t']⟩)] [] (by decide) (by decide)).1,
    (import_success_replaces ⟨[(['o'], ⟨5, 2, ['s']⟩)], []⟩
      ⟨some 1, some ['t'], some [(['n'], ⟨10, 1, ['t']⟩)], some []⟩
      [(['n'], ⟨10, 1, ['t']⟩)] [] (by decide) (by decide)).2.2.2.1 ['o']
      (by decide)⟩

/-- C8: an empty item list makes chooseWeightedItem fail (the randrange
error) and an empty enabled-modes list makes chooseMode fail (the choice
error); neither returns a result. -/
theorem empty_selection_fails (p : Progress) (level : PyStr) (r : Nat)
    (u : Int) :
    choose_word_weighted p level [] r u = none ∧ pick_mode [] r = none :=
  ⟨rfl, rfl⟩

/-- C10: set_word_mode_score touches only its own word-score entry, and
mark_grammar_read touches only its own grammar-read entry; everything else
in the store is unchanged. -/
theorem mutation_frame (p : Progress) (level hw name : PyStr)
    (mode s : Int) (now : PyStr) :
    ((set_word_mode_score p level hw mode s now).grammar_reads
      = p.grammar_reads)
    ∧ (∀ k, k ≠ wordKey level hw mode →
        dictGet (set_word_mode_score p level hw mode s now).word_scores k
          = dictGet p.word_scores k)
    ∧ ((mark_grammar_read p level name now).word_scores = p.word_scores)
    ∧ (∀ k, k ≠ grammarKey level name →
        dictGet (mark_grammar_read p level name now).grammar_reads k
          = dictGet p.grammar_reads k) := by
  refine ⟨rfl, fun k hk => ?_, mark_word_scores p level name now,
    fun k hk => mark_grammar_reads_other p level name now k hk⟩
  rw [set_word_scores_eq]
  exact dictGet_dictSet_ne _ _ _ _ hk

/-- C10 witness: the frame conditions evaluated at concrete other keys. -/
theorem mutation_frame_witness :
    dictGet
      (set_word_mode_score ensure_progress ['A'] ['a'] 1 10
        ['t']).word_scores ['z'] = dictGet ensure_progress.word_scores ['z']
    ∧ dictGet
        (mark_grammar_read ensure_progress ['A'] ['g'] ['t']).grammar_reads
        ['z'] = dictGet ensure_progress.grammar_reads ['z'] :=
  ⟨(mutation_frame ensure_progress ['A'] ['a'] ['g'] 1 10 ['t']).2.1 ['z']
      (by decide),
    (mutation_frame ensure_progress ['A'] ['a'] ['g'] 1 10 ['t']).2.2.2 ['z']
      (by decide)⟩

/-- C7: mark_grammar_read creates an entry with read_count 1 when absent
and increments it otherwise, always updating last_read_at (two marks yield
read_count 2); get_grammar_read_stats returns total = |names| and counts
exactly the listed names recorded for the level, a multiply-read name
counting once and recorded names outside the list being ignored. -/
theorem grammar_read_tracking (p : Progress) (level name now t2 : PyStr)
    (names : List PyStr) (hl : '|' ∉ level) :
    (dictGet p.grammar_reads (grammarKey level name) = none →
      dictGet (mark_grammar_read p level name now).grammar_reads
        (grammarKey level name) = some ⟨1, now⟩)
    ∧ (∀ r : GrammarRec,
        dictGet p.grammar_reads (grammarKey level name) = some r →
        dictGet (mark_grammar_read p level name now).grammar_reads
          (grammarKey level name) = some ⟨r.read_count + 1, now⟩)
    ∧ (dictGet p.grammar_reads (grammarKey level name) = none →
        dictGet (mark_grammar_read (mark_grammar_read p level name now) level
          name t2).grammar_reads (grammarKey level name) = some ⟨2, t2⟩)
    ∧ (get_grammar_read_stats p level names).2 = names.length
    ∧ (get_grammar_read_stats p level names).1
        = names.countP
            (fun n => (dictGet p.grammar_reads (grammarKey level n)).isSome)
    ∧ get_grammar_read_stats
        (mark_grammar_read (mark_grammar_read p level name now) level name t2)
        level names
      = get_grammar_read_stats (mark_grammar_read p level name now) level
          names := by
  refine ⟨mark_new p level name now,
    fun r hr => mark_existing p level name now r hr, ?_, rfl, ?_, ?_⟩
  · intro habs
    have h1 := mark_new p level name now habs
    rw [mark_existing (mark_grammar_read p level name now) level name t2 _ h1]
    norm_num
  · rw [stats_eq_countP p level names hl]
  · have hpres : (dictGet
        (mark_grammar_read p level name now).grammar_reads
        (grammarKey level name)).isSome := by
      cases hh : dictGet p.grammar_reads (grammarKey level name) with
      | none => rw [mark_new p level name now hh]; rfl
      | some r => rw [mark_existing p level name now r hh]; rfl
    exact stats_eq_of_keys _ _ level names
      (mark_keys_of_present (mark_grammar_read p level name now) level name t2
        hpres)

/-- C7 witness: two concrete marks give read_count 2 at the key, counted
once by the stats. -/
theorem grammar_read_tracking_witness :
    dictGet
      (mark_grammar_read
        (mark_grammar_read ensure_progress ['A'] ['g'] ['t']) ['A'] ['g']
        ['u']).grammar_reads (grammarKey ['A'] ['g']) = some ⟨2, ['u']⟩
    ∧ (get_grammar_read_stats
        (mark_grammar_read
          (mark_grammar_read ensure_progress ['A'] ['g'] ['t']) ['A'] ['g']
          ['u']) ['A'] [['g'], ['h']]).1
      = [['g'], ['h']].countP
          (fun n =>
            (dictGet
              (mark_grammar_read
                (mark_grammar_read ensure_progress ['A'] ['g'] ['t']) ['A']
                ['g'] ['u']).grammar_reads (grammarKey ['A'] n)).isSome) :=
  ⟨(grammar_read_tracking ensure_progress ['A'] ['g'] ['t'] ['u']
      [['g'], ['h']] (by decide)).2.2.1 (by decide),
    (grammar_read_tracking
      (mark_grammar_read
        (mark_grammar_read ensure_progress ['A'] ['g'] ['t']) ['A'] ['g']
        ['u']) ['A'] ['g'] ['t'] ['u'] [['g'], ['h']] (by decide)).2.2.2.2.1⟩

/-- C9: for a headword containing the delimiter, every entry written for it
by set_word_mode_score is skipped by the totals parser (its mode segment
never parses as an integer), so its total stays at the default 5 in every
store, while get_word_mode_score still reads the recorded pair back. -/
theorem pipe_headword_skipped (p : Progress) (level hw : PyStr)
    (headwords : List PyStr) (mode score : Int) (now : PyStr)
    (hpipe : '|' ∈ hw) :
    (hw ∈ headwords →
      dictGet (get_all_word_totals p level headwords) hw = some 5)
    ∧ (∀ (lvl lvl2 : PyStr) (m : Int) (totals : List (PyStr × Int))
        (r : WordRec), totalsStep lvl2 totals (wordKey lvl hw m, r) = totals)
    ∧ get_word_mode_score (set_word_mode_score p level hw mode score now)
        level hw mode
      = (score, (get_word_mode_score p level hw mode).2 + 1) :=
  ⟨fun hmem => totals_pipe_hw p level headwords hw hmem hpipe,
    fun lvl lvl2 m totals r => totalsStep_pipe_hw lvl2 lvl hw m hpipe totals r,
    get_after_set p level hw mode score now⟩

/-- C9 witness: after recording score 10 for the pipe-containing headword,
its total is still the default 5 while the score reads back as (10, 1). -/
theorem pipe_headword_skipped_witness :
    dictGet
      (get_all_word_totals
        (set_word_mode_score ensure_progress ['A'] ['a', '|', 'b'] 1 10 ['t'])
        ['A'] [['a', '|', 'b']]) ['a', '|', 'b'] = some 5
    ∧ get_word_mode_score
        (set_word_mode_score ensure_progress ['A'] ['a', '|', 'b'] 1 10 ['t'])
        ['A'] ['a', '|', 'b'] 1
      = (10, (get_word_mode_score ensure_progress ['A'] ['a', '|', 'b'] 1).2
          + 1) :=
  ⟨(pipe_headword_skipped
      (set_word_mode_score ensure_progress ['A'] ['a', '|', 'b'] 1 10 ['t'])
      ['A'] ['a', '|', 'b'] [['a', '|', 'b']] 1 10 ['t'] (by decide)).1
      (by decide),
    (pipe_headword_skipped ensure_progress ['A'] ['a', '|', 'b']
      [['a', '|', 'b']] 1 10 ['t'] (by decide)).2.2⟩

theorem totalsStep_skip (level : PyStr) (totals : List (PyStr × Int))
    (kv : PyStr × WordRec) (lvl h ms : PyStr) (m : Int)
    (hsplit : split2 kv.1 = some (lvl, h, ms)) (hm : pyInt ms = some m)
    (hskip : lvl ≠ level ∨ dictGet totals h = none) :
    totalsStep level totals kv = totals := by
  unfold totalsStep
  rw [hsplit]
  simp only [hm]
  rcases hskip with h1 | h1
  · rw [if_neg h1]
  · by_cases h2 : lvl = level
    · rw [if_pos h2, h1]
    · rw [if_neg h2]

/-- C2: get_all_word_totals maps every listed headword to 5 on a fresh
store; after setting mode 1 to score 10 for one headword it maps that
headword to 14 and the others to 5; entries with a foreign level or an
unlisted headword contribute nothing; and on a store whose keys are
canonical encodings (no duplicates), the total is exactly the spec formula
5 plus the sum over recorded modes 1..5 of (score - 1). -/
theorem totals_formula (level : PyStr) (headwords : List PyStr)
    (hw0 t1 : PyStr) (hl : '|' ∉ level) (h0 : '|' ∉ hw0)
    (hmem : hw0 ∈ headwords) :
    (∀ hw ∈ headwords,
      dictGet (get_all_word_totals ensure_progress level headwords) hw
        = some 5)
    ∧ dictGet
        (get_all_word_totals
          (set_word_mode_score ensure_progress level hw0 1 10 t1) level
          headwords) hw0 = some 14
    ∧ (∀ hw ∈ headwords, hw ≠ hw0 →
        dictGet
          (get_all_word_totals
            (set_word_mode_score ensure_progress level hw0 1 10 t1) level
            headwords) hw = some 5)
    ∧ (∀ (p : Progress) (key : PyStr) (r : WordRec) (lvl h ms : PyStr)
        (m : Int), split2 key = some (lvl, h, ms) → pyInt ms = some m →
        (lvl ≠ level ∨ h ∉ headwords) →
        get_all_word_totals ⟨p.word_scores ++ [(key, r)], p.grammar_reads⟩
          level headwords = get_all_word_totals p level headwords)
    ∧ (∀ (p : Progress) (hw : PyStr), hw ∈ headwords → '|' ∉ hw →
        (p.word_scores.map Prod.fst).Nodup →
        (∀ kv ∈ p.word_scores, keyCanonB kv.1 = true) →
        dictGet (get_all_word_totals p level headwords) hw
          = some (specWordTotal p level hw)) := by
  have hscores : (set_word_mode_score ensure_progress level hw0 1 10
      t1).word_scores
      = [(wordKey level hw0 1, ⟨10, 1, t1⟩)] := rfl
  refine ⟨?_, ?_, ?_, ?_, ?_⟩
  · intro hw hmem'
    rw [totals_lookup, if_pos hmem']
    simp [ensure_progress]
  · rw [totals_lookup, if_pos hmem, hscores]
    have hc : entryContrib level hw0 (wordKey level hw0 1, ⟨10, 1, t1⟩)
        = 9 := by
      unfold entryContrib
      rw [split2_wordKey level hw0 1 hl h0]
      simp only
      rw [show pyInt (pyStrOfInt 1) = some 1 from by decide]
      norm_num
    simp [hc]
  · intro hw hmem' hne
    rw [totals_lookup, if_pos hmem', hscores]
    have hc : entryContrib level hw (wordKey level hw0 1, ⟨10, 1, t1⟩)
        = 0 := by
      unfold entryContrib
      rw [split2_wordKey level hw0 1 hl h0]
      simp only
      rw [show pyInt (pyStrOfInt 1) = some 1 from by decide]
      have hne' : ¬hw0 = hw := fun he => hne he.symm
      simp [hne']
    simp [hc]
  · intro p key r lvl h ms m hsplit hm hfor
    unfold get_all_word_totals
    simp only [List.foldl_append, List.foldl_cons, List.foldl_nil]
    apply totalsStep_skip level _ (key, r) lvl h ms m hsplit hm
    rcases hfor with hlvl | hmem'
    · exact Or.inl hlvl
    · refine Or.inr ?_
      rw [totals_fold_lookup, totals_init_lookup]
      simp [hmem', dictGet]
  · intro p hw hmem' hh hnd hcanon
    exact totals_eq_spec p level headwords hw hmem' hl hh hnd hcanon

/-- C2 witness: the scenario on a concrete fresh store with two
headwords. -/
theorem totals_formula_witness :
    dictGet
      (get_all_word_totals
        (set_word_mode_score ensure_progress ['A'] ['a'] 1 10 ['t']) ['A']
        [['a'], ['b']]) ['a'] = some 14
    ∧ dictGet
        (get_all_word_totals
          (set_word_mode_score ensure_progress ['A'] ['a'] 1 10 ['t']) ['A']
          [['a'], ['b']]) ['b'] = some 5 :=
  ⟨(totals_formula ['A'] [['a'], ['b']] ['a'] ['t'] (by decide) (by decide)
      (by decide)).2.1,
    (totals_formula ['A'] [['a'], ['b']] ['a'] ['t'] (by decide) (by decide)
      (by decide)).2.2.1 ['b'] (by decide) (by decide)⟩

/-- C1: chooseWeightedItem computes per-row weights max(0, 51 - total)
from the shared totals, always returns an index below the item count; when
the weight sum is 0 it draws uniformly over all indices, and otherwise it
draws by weighted sampling: the number of draw values selecting index i is
exactly the i-th weight. -/
theorem weighted_choice_spec (p : Progress) (level : PyStr)
    (headwords : List PyStr) (hne : headwords ≠ []) :
    itemWeights p level headwords
      = headwords.map (fun hw =>
          max 0 (51 - (dictGet (get_all_word_totals p level headwords)
            hw).getD 5))
    ∧ (∀ (r : Nat) (u : Int), ∃ i : Nat,
        choose_word_weighted p level headwords r u = some i
          ∧ i < headwords.length)
    ∧ (intSum (itemWeights p level headwords) = 0 →
        (∀ (r : Nat) (u : Int),
          choose_word_weighted p level headwords r u
            = some (r % headwords.length))
        ∧ (∀ i : Nat, i < headwords.length →
            choose_word_weighted p level headwords i 0 = some i))
    ∧ (intSum (itemWeights p level headwords) ≠ 0 →
        (∀ (r : Nat) (u : Int),
          choose_word_weighted p level headwords r u
            = some (weightedPick (itemWeights p level headwords) u))
        ∧ (∀ i : Nat,
            ((List.range (intSum (itemWeights p level headwords)).toNat).countP
              (fun u : Nat =>
                weightedPick (itemWeights p level headwords) (u : Int) = i))
              = ((itemWeights p level headwords).getD i 0).toNat)) := by
  have hlen : headwords.length ≠ 0 := by
    intro h
    exact hne (List.length_eq_zero.mp h)
  have hwne : itemWeights p level headwords ≠ [] := by
    intro h
    apply hlen
    rw [← itemWeights_length p level headwords, h]
    rfl
  refine ⟨?_, ?_, ?_, ?_⟩
  · unfold itemWeights
    apply List.map_congr_left
    intro hw _
    by_cases hc : ((51 : Int)
        - (dictGet (get_all_word_totals p level headwords) hw).getD 5) < 0
    · rw [if_pos hc]
      exact (max_eq_left (le_of_lt hc)).symm
    · rw [if_neg hc]
      exact (max_eq_right (not_lt.mp hc)).symm
  · intro r u
    unfold choose_word_weighted
    by_cases hs : intSum (itemWeights p level headwords) = 0
    · rw [if_pos hs, if_neg hlen]
      exact ⟨_, rfl, Nat.mod_lt r (Nat.pos_of_ne_zero hlen)⟩
    · rw [if_neg hs]
      refine ⟨_, rfl, ?_⟩
      rw [← itemWeights_length p level headwords]
      exact weightedPick_lt _ hwne u
  · intro hs
    constructor
    · intro r u
      unfold choose_word_weighted
      rw [if_pos hs, if_neg hlen]
    · intro i hi
      unfold choose_word_weighted
      rw [if_pos hs, if_neg hlen, Nat.mod_eq_of_lt hi]
  · intro hs
    refine ⟨fun r u => ?_, fun i => ?_⟩
    · unfold choose_word_weighted
      rw [if_neg hs]
    · exact weightedPick_count (itemWeights p level headwords)
        (itemWeights_nonneg p level headwords) i

/-- C1 witness: the weight formula and the weighted-draw law at a concrete
store and item list. -/
theorem weighted_choice_spec_witness :
    itemWeights ensure_progress ['A'] [['a'], ['b']]
      = [['a'], ['b']].map (fun hw =>
          max 0 (51
            - (dictGet (get_all_word_totals ensure_progress ['A']
                [['a'], ['b']]) hw).getD 5))
    ∧ (intSum (itemWeights ensure_progress ['A'] [['a'], ['b']]) = 0 →
        (∀ (r : Nat) (u : Int),
          choose_word_weighted ensure_progress ['A'] [['a'], ['b']] r u
            = some (r % ([['a'], ['b']] : List PyStr).length))
        ∧ (∀ i : Nat, i < ([['a'], ['b']] : List PyStr).length →
            choose_word_weighted ensure_progress ['A'] [['a'], ['b']] i 0
              = some i)) :=
  ⟨(weighted_choice_spec ensure_progress ['A'] [['a'], ['b']]
      (by decide)).1,
    (weighted_choice_spec ensure_progress ['A'] [['a'], ['b']]
      (by decide)).2.2.1⟩

end EnglishWordApp
